import Mathlib

/-!
Verification development for the markdown indexing and graph-synthesis
engine of the target-process-docs repository.

The definitions below are shallow embeddings of the JavaScript source:

* `extractSections`, `headerMatch` — the section parser
  (`extractSections` in the indexer source).
* `findInternalLinks` — the markdown hyperlink scanner.
* `countMatchesOn`, `scoreOf`, `extractCategoriesScored` — the keyword
  categorizer and scorer (`extractCategories`).
* `fileRelationships`, `docSectionRows` — the per-file rows built by
  `processAllFiles`.
* `pairEdges`, `docSectionEdges`, `categoryGroupEdges` — the category
  affinity edges of `createCategoryIndex`.
* `runBatch`, `buildRun` — the transactional write phases of the run.
* `extractGraphData` — the graph export of the visualization server.

Strings are modelled as Lean `String` (a structure over `List Char`),
matching JavaScript's per-character view of its strings for the ASCII
documents the engine processes.
-/

/-! ### Character classes (JavaScript regular-expression semantics) -/

/-- JavaScript `\w`: ASCII letters, digits, and underscore. -/
def isWordChar (c : Char) : Bool :=
  c.isAlphanum || c = '_'

/-- JavaScript `\s`: whitespace, including line terminators and the
Unicode space characters. -/
def jsWhitespace (c : Char) : Bool :=
  c = ' ' || c = '\t' || c = '\n' || c = '\r' || c = '\x0b' || c = '\x0c' ||
  c = ' ' || c = ' ' || (' ' ≤ c && c ≤ ' ') ||
  c = ' ' || c = ' ' || c = ' ' || c = ' ' ||
  c = '　' || c = '﻿'

/-- JavaScript line terminators, the characters `.` never matches. -/
def lineTerminator (c : Char) : Bool :=
  c = '\n' || c = '\r' || c = ' ' || c = ' '

/-! ### Splitting a text into lines (JavaScript `content.split('\n')`) -/

/-- Split a character sequence at every newline.  Always returns a
non-empty list of lines; mirrors JavaScript `String.prototype.split`. -/
def splitLines : List Char → List (List Char)
  | [] => [[]]
  | c :: rest =>
    if c = '\n' then [] :: splitLines rest
    else
      match splitLines rest with
      | [] => [[c]]
      | l :: ls => (c :: l) :: ls

/-- Rejoin lines with newlines (JavaScript `lines.join('\n')`). -/
def joinLines : List (List Char) → List Char
  | [] => []
  | [l] => l
  | l :: ls => l ++ '\n' :: joinLines ls

/-- JavaScript `String.prototype.trim`: strip whitespace from both ends. -/
def trimChars (l : List Char) : List Char :=
  ((l.dropWhile jsWhitespace).reverse.dropWhile jsWhitespace).reverse

/-- The tail of the header pattern, `\s+(.+)$`, applied to what follows
the marker characters: at least one whitespace character, then a
non-empty capture free of line terminators, the regex engine giving the
whitespace run as much as possible while leaving the capture non-empty. -/
def matchTitleTail (rest : List Char) : Option (List Char) :=
  let w := (rest.takeWhile jsWhitespace).length
  if 1 ≤ w ∧ 2 ≤ rest.length then
    let raw := rest.drop (min w (rest.length - 1))
    if raw.all (fun c => !(lineTerminator c)) then some raw else none
  else none

/-- The header pattern `^(#{1,6})\s+(.+)$` of the section parser: one to
six marker characters, whitespace, then the title text.  Returns the
header level and the trimmed title. -/
def headerMatch (line : List Char) : Option (Nat × List Char) :=
  if 1 ≤ (line.takeWhile (· = '#')).length ∧
     (line.takeWhile (· = '#')).length ≤ 6 then
    match matchTitleTail (line.drop (line.takeWhile (· = '#')).length) with
    | some raw => some ((line.takeWhile (· = '#')).length, trimChars raw)
    | none => none
  else none

/-! ### The section parser -/

/-- One section record as produced by `extractSections`. -/
structure MdSection where
  title : String
  content : String
  level : Nat
  parent_id : Option String
  section_path : String
deriving DecidableEq, Repr

/-- The scan state of the section parser: sections already emitted, the
section currently being accumulated, and the stack of open sections
(innermost first). -/
structure ScanState where
  out : List MdSection
  curTitle : List Char
  curContent : List (List Char)
  curLevel : Nat
  curParent : Option (List Char)
  curPath : List (List Char)
  stack : List (List Char × Nat)
deriving Repr

/-- The separator of breadcrumb paths (JavaScript `join(' > ')`). -/
def crumbSep : List Char := [' ', '>', ' ']

/-- Join a list of character sequences with a separator. -/
def joinSep (sep : List Char) : List (List Char) → List Char
  | [] => []
  | [l] => l
  | l :: ls => l ++ sep ++ joinSep sep ls

/-- Flush the section being accumulated, if it has gathered any content
lines (the parser drops header-only sections). -/
def flushCur (st : ScanState) : List MdSection :=
  if st.curContent = [] then []
  else [{ title := String.mk st.curTitle,
          content := String.mk (joinLines st.curContent),
          level := st.curLevel,
          parent_id := st.curParent.map String.mk,
          section_path := String.mk (joinSep crumbSep st.curPath) }]

/-- Process one line of the document: a header line closes the current
section, pops the stack down to the nearest strictly-lower level, and
opens a new section; any other line accumulates as content. -/
def stepLine (st : ScanState) (line : List Char) : ScanState :=
  match headerMatch line with
  | some (lv, title) =>
    let stack' := st.stack.dropWhile (fun e => lv ≤ e.2)
    { out := st.out ++ flushCur st
      curTitle := title
      curContent := []
      curLevel := lv
      curParent := stack'.head?.map (·.1)
      curPath := (stack'.reverse.map (·.1)) ++ [title]
      stack := (title, lv) :: stack' }
  | none => { st with curContent := st.curContent ++ [line] }

/-- The initial scan state. -/
def initState : ScanState :=
  { out := [], curTitle := [], curContent := [], curLevel := 0,
    curParent := none, curPath := [], stack := [] }

/-- Run the section parser over a list of lines. -/
def extractSectionsLines (lines : List (List Char)) : List MdSection :=
  let f := lines.foldl stepLine initState
  f.out ++ flushCur f

/-- The section parser `extractSections` of the indexer: split the text
at newlines and scan the lines. -/
def extractSections (content : String) : List MdSection :=
  extractSectionsLines (splitLines content.data)

/-- Fuel-bounded slugification loop; the fuel is an upper bound on the
number of characters still to consume, so structural recursion suffices. -/
def slugAux : Nat → List Char → List Char
  | 0, _ => []
  | _, [] => []
  | fuel + 1, c :: rest =>
    if jsWhitespace c then '-' :: slugAux fuel (rest.dropWhile jsWhitespace)
    else c.toLower :: slugAux fuel rest

/-- Slugify a title: lowercase it and replace every whitespace run by a
single dash (`title.toLowerCase().replace(/\s+/g, '-')`). -/
def slugChars (l : List Char) : List Char :=
  slugAux l.length l

/-- The synthetic section identifier: document path, `#`, slugified
title. -/
def sectionIdOf (path : String) (title : String) : String :=
  path ++ "#" ++ String.mk (slugChars title.data)

/-- Split a character list at the first occurrence of a character,
dropping the separator; `none` when the character is absent. -/
def takeUntil (stop : Char) : List Char → Option (List Char × List Char)
  | [] => none
  | c :: rest =>
    if c = stop then some ([], rest)
    else (takeUntil stop rest).map (fun p => (c :: p.1, p.2))

/-- Scan for markdown links `[text](url)`: at a `[`, take the text up to
the first `]`, require `(` immediately after, and take the url up to the
first `)`; on failure resume one character later, on success resume after
the match.  Fuel-bounded by the text length. -/
def scanLinks : Nat → List Char → List (String × String)
  | 0, _ => []
  | _, [] => []
  | fuel + 1, c :: rest =>
    if c = '[' then
      match takeUntil ']' rest with
      | some (text, afterText) =>
        if text ≠ [] then
          match afterText with
          | '(' :: afterParen =>
            match takeUntil ')' afterParen with
            | some (url, afterUrl) =>
              if url ≠ [] then
                (String.mk text, String.mk url) :: scanLinks fuel afterUrl
              else scanLinks fuel rest
            | none => scanLinks fuel rest
          | _ => scanLinks fuel rest
        else scanLinks fuel rest
      | none => scanLinks fuel rest
    else scanLinks fuel rest

/-- Check that one character list ends with another. -/
def endsWithChars (suffix : List Char) (l : List Char) : Bool :=
  suffix.reverse.isPrefixOf l.reverse

/-- The link extractor `findInternalLinks`: every markdown link whose
url ends in `.md` and does not start with `http`, as (text, target). -/
def findInternalLinks (content : String) : List (String × String) :=
  (scanLinks content.data.length content.data).filter
    (fun l => endsWithChars ".md".data l.2.data &&
              !(List.isPrefixOf "http".data l.2.data))

/-- Is the option an ASCII word character (`false` at a text boundary)? -/
def wordOpt : Option Char → Bool
  | some c => isWordChar c
  | none => false

/-- Try to match one term of the alternation at the current position,
with word boundaries on both sides, as `\b(term)\b` does: the term must
be a prefix of the remaining text, the character before the match and
the first matched character must differ in word-character status, and so
must the last matched character and the one following the match.
Returns the remaining text after the match. -/
def matchTermAt (prev : Option Char) (t : List Char) (s : List Char) :
    Option (List Char) :=
  if t ≠ [] ∧ t.isPrefixOf s ∧
     wordOpt prev ≠ wordOpt t.head? ∧
     wordOpt t.getLast? ≠ wordOpt (s.drop t.length).head? then
    some (s.drop t.length)
  else none

/-- First term of the alternation that matches at the current position —
JavaScript alternation is ordered.  Returns the term and the rest. -/
def firstTermAt (prev : Option Char) (ts : List (List Char)) (s : List Char) :
    Option (List Char × List Char) :=
  match ts with
  | [] => none
  | t :: ts' =>
    match matchTermAt prev t s with
    | some r => some (t, r)
    | none => firstTermAt prev ts' s

/-- The global-regex scan counting non-overlapping matches: at each
position try the alternation; on a match continue after it, otherwise
advance one character.  Fuel-bounded by the text length. -/
def scanCount (ts : List (List Char)) : Nat → Option Char → List Char → Nat
  | 0, _, _ => 0
  | _, _, [] => 0
  | fuel + 1, prev, c :: rest =>
    match firstTermAt prev ts (c :: rest) with
    | some (t, r) => 1 + scanCount ts fuel t.getLast? r
    | none => scanCount ts fuel (some c) rest

/-- The number of case-insensitive word-boundary matches of a category's
terms in a text: the source lowercases the text and compiles
`\b(term1|term2|...)\b` with the `gi` flags, so both sides are compared
lowercased. -/
def countMatchesOn (terms : List String) (text : String) : Nat :=
  let s := text.data.map Char.toLower
  scanCount (terms.map (fun t => t.data.map Char.toLower)) s.length none s

/-- The per-category match counts of `extractCategories`: one entry per
vocabulary category with at least one match, in vocabulary order. -/
def extractCategoriesCounts (vocab : List (String × List String))
    (text : String) : List (String × Nat) :=
  vocab.filterMap (fun ct =>
    let n := countMatchesOn ct.2 text
    if n ≠ 0 then some (ct.1, n) else none)

/-- The normalized score of `extractCategories`:
`Math.min(count / Math.sqrt(textLength / 100), 1)` with the text length
floored at one. -/
noncomputable def scoreOf (len : Nat) (count : Nat) : ℝ :=
  min ((count : ℝ) / Real.sqrt ((max len 1 : ℝ) / 100)) 1

/-- The full output of `extractCategories`: category, match count and
normalized score for every category with at least one match. -/
noncomputable def extractCategoriesScored (vocab : List (String × List String))
    (text : String) : List (String × Nat × ℝ) :=
  (extractCategoriesCounts vocab text).map
    (fun cn => (cn.1, cn.2, scoreOf text.length cn.2))

/-! ### Persisted rows -/

/-- A row of the `relationships` table. -/
structure RelRow where
  source_id : String
  target_id : String
  relationship_type : String
deriving DecidableEq, Repr

/-- A row of the `docs` table (fields used by the graph export). -/
structure DocRow where
  path : String
deriving DecidableEq, Repr

/-- A row of the `sections` table. -/
structure SectionRow where
  doc_path : String
  section_id : String
  title : String
  level : Nat
  parent_id : Option String
  section_path : String
deriving DecidableEq, Repr

/-- The section rows one file contributes (`sectionsToInsert` in
`processAllFiles`). -/
def docSectionRows (path : String) (content : String) : List SectionRow :=
  (extractSections content).map (fun s =>
    { doc_path := path
      section_id := sectionIdOf path s.title
      title := s.title
      level := s.level
      parent_id := s.parent_id
      section_path := s.section_path })

/-- The relationship rows one file contributes
(`relationshipsToInsert` in `processAllFiles`): one `link` row per
internal link, then, per section, a bidirectional pair of rows typed
`category` between the document and the section. -/
def fileRelationships (path : String) (content : String) : List RelRow :=
  (findInternalLinks content).map
    (fun l => { source_id := path, target_id := l.2,
                relationship_type := "link" })
  ++ (extractSections content).flatMap (fun s =>
    [{ source_id := path, target_id := sectionIdOf path s.title,
       relationship_type := "category" },
     { source_id := sectionIdOf path s.title, target_id := path,
       relationship_type := "category" }])

/-- The document–document edges of one category group: for every pair of
documents, in nested-loop order, a bidirectional pair of `category`
rows. -/
def pairEdges : List String → List RelRow
  | [] => []
  | d :: rest =>
    rest.flatMap (fun e =>
      [{ source_id := d, target_id := e, relationship_type := "category" },
       { source_id := e, target_id := d, relationship_type := "category" }])
    ++ pairEdges rest

/-- The document–section edges of one document: sections of the group
whose id does not start with the document's path, capped at five, each
connected bidirectionally. -/
def docSectionEdges (doc : String) (secs : List String) : List RelRow :=
  ((secs.filter (fun s => !(List.isPrefixOf doc.data s.data))).take 5).flatMap
    (fun s =>
      [{ source_id := doc, target_id := s, relationship_type := "category" },
       { source_id := s, target_id := doc, relationship_type := "category" }])

/-- The edges `createCategoryIndex` emits for one category group: the
document list is capped at ten, every pair of capped documents is
connected bidirectionally, and each capped document is connected to at
most five same-category sections of other documents. -/
def categoryGroupEdges (docs : List String) (secs : List String) : List RelRow :=
  let limited := docs.take 10
  pairEdges limited ++ limited.flatMap (fun d => docSectionEdges d secs)

/-- All category-affinity edges of a run: one group per category of the
document map, sections looked up in the section map (empty when the
category has none). -/
def createCategoryEdges (docsBy : List (String × List String))
    (secsBy : List (String × List String)) : List RelRow :=
  docsBy.flatMap (fun cd =>
    categoryGroupEdges cd.2 ((secsBy.lookup cd.1).getD []))

/-! ### The transactional write phases -/

/-- Modelled from the spec: the storage engine itself is an external
collaborator; its contract is that a batch of writes wrapped in
`BEGIN TRANSACTION` … `COMMIT` is atomic — either every write is
appended to the committed state, or, when a write fails mid-batch and
the batch is rolled back, the committed state is left unchanged.  The
failure point is the index of the first failing write, `none` when all
writes succeed. -/
def runBatch {α : Type} (db : List α) (writes : List α)
    (failAt : Option Nat) : List α × Bool :=
  match failAt with
  | none => (db ++ writes, true)
  | some k => if k < writes.length then (db, false) else (db ++ writes, true)

/-- One full rebuild as `main` runs it: the previous tables are dropped
and all rows deleted before any batch starts; `processAllFiles` then
commits the document/section/relationship/keyword batch in one
transaction and rethrows its failures, after which
`createCategoryIndex` commits the category-edge batch in a second
transaction, catching and merely logging its failures, so the run still
reports success. -/
def buildRun {α : Type} (db : List α) (batch1 batch2 : List α)
    (fail1 fail2 : Option Nat) : List α × Bool :=
  let _prior := db
  let cleared : List α := []
  let r1 := runBatch cleared batch1 fail1
  if r1.2 then ((runBatch r1.1 batch2 fail2).1, true)
  else (r1.1, false)

/-! ### The graph export (`extractGraphData`) -/

/-- A node of the exported graph payload. -/
structure GNode where
  id : String
  group : String
deriving DecidableEq, Repr

/-- A link of the exported graph payload. -/
structure GLink where
  source : String
  target : String
  type : String
deriving DecidableEq, Repr

/-- All node ids of the payload: document paths then section ids. -/
def nodeIdsOf (docs : List DocRow) (sections : List SectionRow) : List String :=
  docs.map (·.path) ++ sections.map (·.section_id)

/-- The links synthesized per section, walking the sections in order
with the ids registered so far (the source registers each section in
`nodeMap` before pushing its links): a `contains` link from the owning
document when the document id is known, and a `parent-child` link when
the parent reference is non-empty and is a known node id. -/
def sectionLinksAux : List String → List SectionRow → List GLink
  | _, [] => []
  | seen, s :: rest =>
    let seen' := seen ++ [s.section_id]
    ((if seen'.contains s.doc_path then
        [{ source := s.doc_path, target := s.section_id, type := "contains" }]
      else []) ++
     (match s.parent_id with
      | some p =>
        if p ≠ "" ∧ seen'.contains p then
          [{ source := p, target := s.section_id, type := "parent-child" }]
        else []
      | none => [])) ++ sectionLinksAux seen' rest

/-- The graph export: one node per document and per section, the
synthesized containment and hierarchy links, and every stored
relationship row whose endpoints are both known node ids. -/
def extractGraphData (docs : List DocRow) (sections : List SectionRow)
    (rels : List RelRow) : List GNode × List GLink :=
  let nodeIds := nodeIdsOf docs sections
  let nodes := docs.map (fun d => { id := d.path, group := "document" : GNode })
    ++ sections.map (fun s => { id := s.section_id, group := "section" : GNode })
  let links := sectionLinksAux (docs.map (·.path)) sections
    ++ (rels.filter (fun r =>
          nodeIds.contains r.source_id && nodeIds.contains r.target_id)).map
        (fun r => { source := r.source_id, target := r.target_id,
                    type := r.relationship_type })
  (nodes, links)

/-- The headers of a list of lines with their line indices, the first
line carrying index `n`: each entry is (line index, level, title), in
document order. -/
def headersIdxFrom : Nat → List (List Char) → List (Nat × Nat × List Char)
  | _, [] => []
  | n, l :: ls =>
    (match headerMatch l with
     | some (lv, t) => [(n, lv, t)]
     | none => []) ++ headersIdxFrom (n + 1) ls

/-- Well-formedness of a section record relative to the indexed headers
of the document: level at most six, level zero only for the anonymous
preamble, and any parent reference names a header line with a strictly
lower level occurring strictly earlier in document order than a header
line carrying the section's own level and title. -/
def SecOK (hs : List (Nat × Nat × List Char)) (s : MdSection) : Prop :=
  s.level ≤ 6 ∧
  (s.level = 0 → s.title = "" ∧ s.parent_id = none) ∧
  ∀ p, s.parent_id = some p → 1 ≤ s.level ∧
    ∃ i lv tl j tc, (i, lv, tl) ∈ hs ∧ String.mk tl = p ∧ lv < s.level ∧
      (j, s.level, tc) ∈ hs ∧ String.mk tc = s.title ∧ i < j

/-- Every open section on the stack is a header already seen (its line
index below the current position), with level in one to six. -/
def StackOK (hs : List (Nat × Nat × List Char)) (n : Nat)
    (stack : List (List Char × Nat)) : Prop :=
  ∀ e ∈ stack, (∃ i, i < n ∧ (i, e.2, e.1) ∈ hs) ∧ 1 ≤ e.2 ∧ e.2 ≤ 6

/-- Well-formedness of the section being accumulated: when it has a
parent, both its own opening header and the earlier parent header are
among the seen headers, the parent strictly first. -/
def CurOK (hs : List (Nat × Nat × List Char)) (st : ScanState) : Prop :=
  st.curLevel ≤ 6 ∧
  (st.curLevel = 0 → st.curTitle = [] ∧ st.curParent = none) ∧
  ∀ p, st.curParent = some p → 1 ≤ st.curLevel ∧
    ∃ i lv j, (i, lv, p) ∈ hs ∧ lv < st.curLevel ∧
      (j, st.curLevel, st.curTitle) ∈ hs ∧ i < j

/-! ### Theorems -/

theorem splitLines_ne_nil (s : List Char) : splitLines s ≠ [] := by
  match s with
  | [] => simp [splitLines]
  | c :: rest =>
    simp only [splitLines]
    split
    · simp
    · match h : splitLines rest with
      | [] => simp
      | l :: ls => simp

theorem joinLines_splitLines (s : List Char) : joinLines (splitLines s) = s := by
  induction s with
  | nil => rfl
  | cons c rest ih =>
    simp only [splitLines]
    split
    · rename_i hc
      subst hc
      match h : splitLines rest with
      | [] => exact absurd h (splitLines_ne_nil rest)
      | l :: ls =>
        rw [h] at ih
        simp [joinLines]
        cases ls with
        | nil => simpa [joinLines] using ih
        | cons a as => simpa [joinLines] using ih
    · match h : splitLines rest with
      | [] => exact absurd h (splitLines_ne_nil rest)
      | l :: ls =>
        rw [h] at ih
        cases ls with
        | nil => simpa [joinLines] using ih
        | cons a as => simpa [joinLines] using ih

/-! ### The header pattern -/

example : extractSections "hello" =
    [{ title := "", content := "hello", level := 0, parent_id := none,
       section_path := "" }] := by decide

example : extractSections "# A\nx\n## B\ny" =
    [{ title := "A", content := "x", level := 1, parent_id := none,
       section_path := "A" },
     { title := "B", content := "y", level := 2, parent_id := some "A",
       section_path := "A > B" }] := by decide

example : extractSections "# Guide\n## Setup\ncontent\n## Usage\ncontent" =
    [{ title := "Setup", content := "content", level := 2,
       parent_id := some "Guide", section_path := "Guide > Setup" },
     { title := "Usage", content := "content", level := 2,
       parent_id := some "Guide", section_path := "Guide > Usage" }] := by decide

example : extractSections "####### seven\nx" =
    [{ title := "", content := "####### seven\nx", level := 0,
       parent_id := none, section_path := "" }] := by decide

example : extractSections "##   \nx" =
    [{ title := "", content := "x", level := 2, parent_id := none,
       section_path := "" }] := by decide

/-! ### Section identifiers and per-file relationship rows -/

example : sectionIdOf "d.md" "Getting  Started" = "d.md#getting-started" := by decide

example : findInternalLinks "see [the guide](guide.md) and [ext](http://x.md) and [p](a.txt)" =
    [("the guide", "guide.md")] := by decide

/-! ### The keyword categorizer and scorer -/







example : countMatchesOn ["api", "rest"] "api api api" = 3 := by decide
example : countMatchesOn ["api"] "apis api API" = 2 := by decide
example : countMatchesOn ["custom field"] "a custom field here" = 1 := by decide
example : countMatchesOn ["api"] "capybara" = 0 := by decide

example : fileRelationships "d.md" "# A\nx" =
    [{ source_id := "d.md", target_id := "d.md#a",
       relationship_type := "category" },
     { source_id := "d.md#a", target_id := "d.md",
       relationship_type := "category" }] := by decide

/-! ### The category index (`createCategoryIndex`) -/

example :
    (extractGraphData [{ path := "d.md" }]
      (docSectionRows "d.md" "# A\nx\n## B\ny")
      (fileRelationships "d.md" "# A\nx\n## B\ny")).2 =
    [{ source := "d.md", target := "d.md#a", type := "contains" },
     { source := "d.md", target := "d.md#b", type := "contains" },
     { source := "d.md", target := "d.md#a", type := "category" },
     { source := "d.md#a", target := "d.md", type := "category" },
     { source := "d.md", target := "d.md#b", type := "category" },
     { source := "d.md#b", target := "d.md", type := "category" }] := by decide

/-! ### Helper lemmas about the section parser -/

/-- Folding lines that never match the header pattern only accumulates
content. -/
theorem foldl_stepLine_no_header (lines : List (List Char)) :
    ∀ st : ScanState, (∀ l ∈ lines, headerMatch l = none) →
    lines.foldl stepLine st = { st with curContent := st.curContent ++ lines } := by
  induction lines with
  | nil =>
    intro st _
    cases st
    simp
  | cons l ls ih =>
    intro st h
    have hl : headerMatch l = none := h l (by simp)
    have hls : ∀ x ∈ ls, headerMatch x = none := fun x hx => h x (by simp [hx])
    simp only [List.foldl_cons]
    rw [show stepLine st l = { st with curContent := st.curContent ++ [l] } by
      simp [stepLine, hl]]
    rw [ih _ hls]
    simp

/-- C4 (counterexample): the input `"hello"` has no header line, yet the
section parser does not return the empty list — it emits a level-0
preamble section. -/
theorem extractSections_no_header_ce :
    ¬ ((∀ l ∈ splitLines "hello".data, headerMatch l = none) →
       extractSections "hello" = []) := by decide

/-- C4 (amended): for every input text in which no line matches the
header pattern, the section parser returns exactly one section record —
a preamble with empty title, level 0, no parent, empty breadcrumb, and
the whole text as content — even when the text is empty. -/
theorem extractSections_no_header (text : String)
    (h : ∀ l ∈ splitLines text.data, headerMatch l = none) :
    extractSections text =
      [{ title := "", content := text, level := 0, parent_id := none,
         section_path := "" }] := by
  unfold extractSections extractSectionsLines
  rw [foldl_stepLine_no_header _ _ h]
  have hne := splitLines_ne_nil text.data
  simp only [initState, List.nil_append]
  rw [flushCur]
  simp only [hne, if_neg hne]
  have : String.mk (joinLines (splitLines text.data)) = text := by
    rw [joinLines_splitLines]
  simp [this, joinSep]

/-- C4 (witness): the amended theorem applied to the text `"hello"`. -/
theorem extractSections_no_header_witness :
    extractSections "hello" =
      [{ title := "", content := "hello", level := 0, parent_id := none,
         section_path := "" }] :=
  extractSections_no_header "hello" (by decide)

theorem mem_of_mem_dropWhile {α} (p : α → Bool) (l : List α) :
    ∀ x ∈ l.dropWhile p, x ∈ l := by
  induction l with
  | nil => intro x hx; exact absurd hx (by simp [List.dropWhile])
  | cons a as ih =>
    intro x hx
    by_cases h : p a
    · exact List.mem_cons_of_mem a (ih x (by simpa [List.dropWhile, h] using hx))
    · simpa [List.dropWhile, h] using hx

theorem head?_dropWhile_false {α} (p : α → Bool) (l : List α) :
    ∀ x, (l.dropWhile p).head? = some x → p x = false := by
  induction l with
  | nil => intro x hx; simp [List.dropWhile] at hx
  | cons a as ih =>
    intro x hx
    by_cases h : p a
    · exact ih x (by simpa [List.dropWhile, h] using hx)
    · simp [List.dropWhile, h] at hx
      simp [← hx, h]

/-! ### Invariants of the section parser (levels and parents) -/

theorem SecOK.mono {hs hs' : List (Nat × Nat × List Char)}
    (hsub : ∀ x ∈ hs, x ∈ hs') {s : MdSection} (h : SecOK hs s) : SecOK hs' s := by
  refine ⟨h.1, h.2.1, fun p hp => ?_⟩
  obtain ⟨h1, i, lv, tl, j, tc, hmem, htl, hlt, hmem2, htc, hij⟩ := h.2.2 p hp
  exact ⟨h1, i, lv, tl, j, tc, hsub _ hmem, htl, hlt, hsub _ hmem2, htc, hij⟩

theorem headerMatch_bounds {line : List Char} {lv : Nat} {t : List Char}
    (h : headerMatch line = some (lv, t)) : 1 ≤ lv ∧ lv ≤ 6 := by
  unfold headerMatch at h
  split at h
  · rename_i hcond
    revert h
    match matchTitleTail (line.drop ((line.takeWhile (· = '#')).length)) with
    | some raw => intro h; cases h; exact hcond
    | none => intro h; cases h
  · cases h

theorem flushCur_secOK {hs : List (Nat × Nat × List Char)} {st : ScanState}
    (h : CurOK hs st) : ∀ s ∈ flushCur st, SecOK hs s := by
  intro s hsmem
  unfold flushCur at hsmem
  split at hsmem
  · cases hsmem
  · simp only [List.mem_singleton] at hsmem
    subst hsmem
    refine ⟨h.1, ?_, ?_⟩
    · intro h0
      obtain ⟨ht, hp⟩ := h.2.1 h0
      exact ⟨by simp only [ht], by simp only [hp, Option.map_none']⟩
    · intro p hp
      rw [Option.map_eq_some'] at hp
      obtain ⟨pc, hpc, rfl⟩ := hp
      obtain ⟨h1, i, lv, j, hmem, hlt, hmem2, hij⟩ := h.2.2 pc hpc
      exact ⟨h1, i, lv, pc, j, st.curTitle, hmem, rfl, hlt, hmem2, rfl, hij⟩

/-- The main parser invariant: starting from a well-formed state at line
index `n`, every section the parser emits over the remaining lines is
well-formed with respect to the indexed headers seen before plus the
indexed headers of those lines. -/
theorem foldl_stepLine_secOK (lines : List (List Char)) :
    ∀ (st : ScanState) (hs : List (Nat × Nat × List Char)) (n : Nat),
    StackOK hs n st.stack → CurOK hs st → (∀ s ∈ st.out, SecOK hs s) →
    ∀ s ∈ (lines.foldl stepLine st).out ++ flushCur (lines.foldl stepLine st),
      SecOK (hs ++ headersIdxFrom n lines) s := by
  induction lines with
  | nil =>
    intro st hs n _ hcur hout s hsmem
    simp only [List.foldl_nil] at hsmem
    simp only [headersIdxFrom, List.append_nil]
    rcases List.mem_append.mp hsmem with hmem | hmem
    · exact hout s hmem
    · exact flushCur_secOK hcur s hmem
  | cons l ls ih =>
    intro st hs n hstack hcur hout s hsmem
    simp only [List.foldl_cons] at hsmem
    match hl : headerMatch l with
    | none =>
      have hstep : stepLine st l = { st with curContent := st.curContent ++ [l] } := by
        simp [stepLine, hl]
      rw [hstep] at hsmem
      have hstack' : StackOK hs (n + 1) st.stack := by
        intro e he
        obtain ⟨⟨i, hin, hm⟩, h1, h6⟩ := hstack e he
        exact ⟨⟨i, by omega, hm⟩, h1, h6⟩
      have := ih { st with curContent := st.curContent ++ [l] } hs (n + 1) hstack'
        ⟨hcur.1, hcur.2.1, hcur.2.2⟩ hout s hsmem
      have harr : headersIdxFrom n (l :: ls) = headersIdxFrom (n + 1) ls := by
        simp [headersIdxFrom, hl]
      rw [harr]
      exact this
    | some (lv, t) =>
      have hbounds := headerMatch_bounds hl
      have hstep : stepLine st l =
          { out := st.out ++ flushCur st
            curTitle := t
            curContent := []
            curLevel := lv
            curParent := (st.stack.dropWhile (fun e => lv ≤ e.2)).head?.map (·.1)
            curPath := ((st.stack.dropWhile (fun e => lv ≤ e.2)).reverse.map (·.1)) ++ [t]
            stack := (t, lv) :: st.stack.dropWhile (fun e => lv ≤ e.2) } := by
        simp [stepLine, hl]
      rw [hstep] at hsmem
      have hsub : ∀ x ∈ hs, x ∈ hs ++ [(n, lv, t)] := fun x hx => by simp [hx]
      have := ih _ (hs ++ [(n, lv, t)]) (n + 1)
        (by
          intro e he
          rcases List.mem_cons.mp he with rfl | he'
          · exact ⟨⟨n, by omega, by simp⟩, hbounds.1, hbounds.2⟩
          · obtain ⟨⟨i, hin, hm⟩, h1, h6⟩ := hstack e (mem_of_mem_dropWhile _ _ e he')
            exact ⟨⟨i, by omega, hsub _ hm⟩, h1, h6⟩)
        (by
          refine ⟨hbounds.2, ?_, ?_⟩
          · intro h0
            exfalso
            have h0' : lv = 0 := h0
            omega
          · intro p hp
            rw [Option.map_eq_some'] at hp
            obtain ⟨e, he, rfl⟩ := hp
            have hfalse := head?_dropWhile_false _ _ e he
            have hmem : e ∈ st.stack :=
              mem_of_mem_dropWhile _ _ e (List.mem_of_mem_head? he)
            obtain ⟨⟨i, hin, hm⟩, h1, _⟩ := hstack e hmem
            refine ⟨hbounds.1, i, e.2, n, hsub _ hm, ?_, ?_, ?_⟩
            · simpa using hfalse
            · show (n, lv, t) ∈ hs ++ [(n, lv, t)]
              simp
            · omega)
        (by
          intro x hx
          rcases List.mem_append.mp hx with hx' | hx'
          · exact SecOK.mono hsub (hout x hx')
          · exact SecOK.mono hsub (flushCur_secOK hcur x hx'))
        s hsmem
      have harr : (hs ++ [(n, lv, t)]) ++ headersIdxFrom (n + 1) ls
          = hs ++ headersIdxFrom n (l :: ls) := by
        simp [headersIdxFrom, hl]
      rwa [harr] at this

/-- C5 (counterexample): on `"q\n# A\n## B\nx"` the parser emits a
level-0 preamble section (violating the claimed range [1,6]) and a
section whose non-null parent reference names no section of the output
at all — the parent header accumulated no content and was dropped. -/
theorem extractSections_wf_ce :
    ¬ (∀ s ∈ extractSections "q\n# A\n## B\nx",
        (1 ≤ s.level ∧ s.level ≤ 6) ∧
        ∀ p, s.parent_id = some p →
          ∃ s' ∈ extractSections "q\n# A\n## B\nx",
            s'.title = p ∧ s'.level < s.level) := by decide

/-- C5 (amended): every section record has level at most 6, a level-0
record is exactly the anonymous preamble (empty title, no parent), and
whenever the parent reference is non-null the section's level is at
least 1 and the document contains a header line whose title is the
referenced parent, with a strictly lower level, occurring strictly
earlier in document order than a header line carrying the section's own
level and title — though the parent header need not itself appear as a
section of the output (it is dropped when it accumulated no content). -/
theorem extractSections_wf (text : String) :
    ∀ s ∈ extractSections text,
      s.level ≤ 6 ∧
      (s.level = 0 → s.title = "" ∧ s.parent_id = none) ∧
      ∀ p, s.parent_id = some p → 1 ≤ s.level ∧
        ∃ i lv tl j tc,
          (i, lv, tl) ∈ headersIdxFrom 0 (splitLines text.data) ∧
          String.mk tl = p ∧ lv < s.level ∧
          (j, s.level, tc) ∈ headersIdxFrom 0 (splitLines text.data) ∧
          String.mk tc = s.title ∧ i < j := by
  intro s hsmem
  have := foldl_stepLine_secOK (splitLines text.data) initState [] 0
    (by intro e he; cases he)
    (by
      refine ⟨by simp [initState], by simp [initState], ?_⟩
      intro p hp
      simp [initState] at hp)
    (by intro x hx; cases hx)
    s hsmem
  simpa [SecOK] using this

/-- C5 (witness): the amended theorem applied to the section `B` of the
document `"# A\nx\n## B\ny"`: the parent reference `A` is the level-1
header of line 0, strictly before the level-2 header `B` of line 2. -/
theorem extractSections_wf_witness :
    1 ≤ (2 : Nat) ∧
    ∃ i lv tl j tc,
      (i, lv, tl) ∈ headersIdxFrom 0 (splitLines ("# A\nx\n## B\ny").data) ∧
      String.mk tl = "A" ∧ lv < 2 ∧
      (j, 2, tc) ∈ headersIdxFrom 0 (splitLines ("# A\nx\n## B\ny").data) ∧
      String.mk tc = "B" ∧ i < j :=
  (extractSections_wf "# A\nx\n## B\ny"
    { title := "B", content := "y", level := 2, parent_id := some "A",
      section_path := "A > B" }
    (by decide)).2.2 "A" rfl

/-! ### Properties of the categorizer -/

theorem scored_cons (vt : String × List String) (rest : List (String × List String))
    (text : String) :
    extractCategoriesScored (vt :: rest) text =
      (if countMatchesOn vt.2 text ≠ 0 then
        [(vt.1, countMatchesOn vt.2 text,
          scoreOf text.length (countMatchesOn vt.2 text))]
      else []) ++ extractCategoriesScored rest text := by
  by_cases h : countMatchesOn vt.2 text ≠ 0 <;>
    simp [extractCategoriesScored, extractCategoriesCounts, List.filterMap_cons, h]

theorem lookup_scored_none (text : String) (vocab : List (String × List String)) :
    ∀ c : String, c ∉ vocab.map Prod.fst →
      (extractCategoriesScored vocab text).lookup c = none := by
  induction vocab with
  | nil => intro c _; rfl
  | cons vt rest ih =>
    intro c hc
    simp only [List.map_cons, List.mem_cons, not_or] at hc
    obtain ⟨hne, hrest⟩ := hc
    rw [scored_cons]
    by_cases h : countMatchesOn vt.2 text ≠ 0
    · rw [if_pos h, List.singleton_append]
      have hbeq : (c == vt.1) = false := beq_eq_false_iff_ne.mpr hne
      simp [List.lookup, hbeq, ih c hrest]
    · rw [if_neg h, List.nil_append]
      exact ih c hrest

/-- C1: for every vocabulary with distinct category names and every
text, a category whose terms have at least one case-insensitive
word-boundary match appears in the categorizer's output with the number
of non-overlapping matches and the normalized score
`min(count / sqrt(max(textLength,1) / 100), 1)`; a category with zero
matches is absent from the output. -/
theorem extractCategories_lookup (vocab : List (String × List String))
    (text : String) (c : String) (terms : List String)
    (hnd : (vocab.map Prod.fst).Nodup) (hmem : (c, terms) ∈ vocab) :
    (countMatchesOn terms text ≠ 0 →
      (extractCategoriesScored vocab text).lookup c =
        some (countMatchesOn terms text,
              scoreOf text.length (countMatchesOn terms text))) ∧
    (countMatchesOn terms text = 0 →
      (extractCategoriesScored vocab text).lookup c = none) := by
  induction vocab with
  | nil => cases hmem
  | cons vt rest ih =>
    rw [List.map_cons, List.nodup_cons] at hnd
    obtain ⟨hkey, hndrest⟩ := hnd
    rcases List.mem_cons.mp hmem with heq | hmemrest
    · subst heq
      constructor
      · intro hn
        rw [scored_cons, if_pos hn, List.singleton_append]
        simp [List.lookup]
      · intro hn
        rw [scored_cons, if_neg (by simp [hn]), List.nil_append]
        exact lookup_scored_none text rest c hkey
    · have hne : vt.1 ≠ c := by
        intro hcontra
        exact hkey (hcontra ▸ List.mem_map_of_mem Prod.fst hmemrest)
      have hbeq : (c == vt.1) = false := beq_eq_false_iff_ne.mpr (Ne.symm hne)
      have := ih hndrest hmemrest
      constructor
      · intro hn
        rw [scored_cons]
        by_cases h : countMatchesOn vt.2 text ≠ 0
        · rw [if_pos h, List.singleton_append]
          simp only [List.lookup, hbeq]
          exact this.1 hn
        · rw [if_neg h, List.nil_append]
          exact this.1 hn
      · intro hn
        rw [scored_cons]
        by_cases h : countMatchesOn vt.2 text ≠ 0
        · rw [if_pos h, List.singleton_append]
          simp only [List.lookup, hbeq]
          exact this.2 hn
        · rw [if_neg h, List.nil_append]
          exact this.2 hn

/-- C1 (witness): the scenario of the specification — the text
`"api api api"` (length 11) against a category whose terms include
`api` yields count 3 and score `min(3 / sqrt(11 / 100), 1)`; a second
category without matches is absent. -/
theorem extractCategories_lookup_witness :
    (extractCategoriesScored
        [("Integration", ["api", "rest"]), ("System", ["setting"])]
        "api api api").lookup "Integration" = some (3, scoreOf 11 3) ∧
    (extractCategoriesScored
        [("Integration", ["api", "rest"]), ("System", ["setting"])]
        "api api api").lookup "System" = none := by
  have h1 := (extractCategories_lookup
      [("Integration", ["api", "rest"]), ("System", ["setting"])]
      "api api api" "Integration" ["api", "rest"]
      (by decide) (by decide)).1 (by decide)
  have h2 := (extractCategories_lookup
      [("Integration", ["api", "rest"]), ("System", ["setting"])]
      "api api api" "System" ["setting"]
      (by decide) (by decide)).2 (by decide)
  have e1 : countMatchesOn ["api", "rest"] "api api api" = 3 := by decide
  have e2 : "api api api".length = 11 := by decide
  rw [e1, e2] at h1
  exact ⟨h1, h2⟩

theorem sqrt_denom_pos (L : ℕ) : 0 < Real.sqrt ((max L 1 : ℝ) / 100) := by
  apply Real.sqrt_pos.mpr
  have h1 : (1 : ℝ) ≤ max (L : ℝ) 1 := le_max_right _ _
  linarith

theorem scoreOf_nonneg (L n : ℕ) : 0 ≤ scoreOf L n := by
  unfold scoreOf
  exact le_min (div_nonneg (Nat.cast_nonneg n) (Real.sqrt_nonneg _)) zero_le_one

theorem scoreOf_le_one (L n : ℕ) : scoreOf L n ≤ 1 := min_le_right _ _

theorem scoreOf_mono (L : ℕ) {n m : ℕ} (h : n ≤ m) : scoreOf L n ≤ scoreOf L m := by
  unfold scoreOf
  exact min_le_min
    (div_le_div_of_nonneg_right (by exact_mod_cast h) (Real.sqrt_nonneg _))
    le_rfl

/-- C9: every normalized score the categorizer outputs lies in [0,1];
for a fixed text length the score is monotonically non-decreasing in
the match count — in particular doubling the count never decreases it —
and never exceeds 1. -/
theorem extractCategories_score_props :
    (∀ (vocab : List (String × List String)) (text : String)
       (c : String) (n : Nat) (s : ℝ),
       (c, n, s) ∈ extractCategoriesScored vocab text → 0 ≤ s ∧ s ≤ 1) ∧
    (∀ L n m : ℕ, n ≤ m → scoreOf L n ≤ scoreOf L m) ∧
    (∀ L n : ℕ, scoreOf L n ≤ scoreOf L (2 * n) ∧ scoreOf L n ≤ 1) := by
  refine ⟨?_, ?_, ?_⟩
  · intro vocab text c n s hmem
    unfold extractCategoriesScored at hmem
    obtain ⟨cn, _, heq⟩ := List.mem_map.mp hmem
    have hs : s = scoreOf text.length cn.2 := by
      have := congrArg (fun t => t.2.2) heq
      simpa using this.symm
    rw [hs]
    exact ⟨scoreOf_nonneg _ _, scoreOf_le_one _ _⟩
  · intro L n m h
    exact scoreOf_mono L h
  · intro L n
    exact ⟨scoreOf_mono L (by omega), scoreOf_le_one _ _⟩

/-- C9 (witness): the bounds at the concrete output entry for the text
`"api api api"`, and monotonicity at count 3 versus 6. -/
theorem extractCategories_score_props_witness :
    (0 ≤ scoreOf 11 3 ∧ scoreOf 11 3 ≤ 1) ∧ scoreOf 11 3 ≤ scoreOf 11 6 := by
  constructor
  · apply extractCategories_score_props.1
      [("Integration", ["api"])] "api api api" "Integration" 3 (scoreOf 11 3)
    have : ("Integration", 3, scoreOf 11 3) ∈
        extractCategoriesScored [("Integration", ["api"])] "api api api" := by
      have hscored : extractCategoriesScored [("Integration", ["api"])] "api api api" =
          [("Integration", 3, scoreOf 11 3)] := by
        rw [scored_cons]
        rw [if_pos (by decide : countMatchesOn ("Integration", ["api"]).2 "api api api" ≠ 0)]
        have e1' : countMatchesOn ("Integration", ["api"]).2 "api api api" = 3 := by decide
        have e2' : ("api api api" : String).length = 11 := by decide
        rw [e1', e2']
        rfl
      rw [hscored]
      simp
    exact this
  · exact extractCategories_score_props.2.1 11 3 6 (by omega)

/-! ### Properties of the per-file relationship rows -/

theorem linkRows_filter_ne (path : String) (links : List (String × String))
    (t : String) (h : ("link" == t) = false) :
    ((links.map (fun l => RelRow.mk path l.2 "link")).filter
      (fun r => r.relationship_type == t)) = [] := by
  induction links with
  | nil => rfl
  | cons a as ih => simp [*, h]

theorem catRows_filter_contains (path : String) (l : List MdSection) :
    ((l.flatMap (fun s =>
      [RelRow.mk path (sectionIdOf path s.title) "category",
       RelRow.mk (sectionIdOf path s.title) path "category"])).filter
      (fun r => r.relationship_type == "contains")) = [] := by
  induction l with
  | nil => rfl
  | cons a as ih => simp [*]

theorem catRows_filter_category (path : String) (l : List MdSection) :
    ((l.flatMap (fun s =>
      [RelRow.mk path (sectionIdOf path s.title) "category",
       RelRow.mk (sectionIdOf path s.title) path "category"])).filter
      (fun r => r.relationship_type == "category")).length = 2 * l.length := by
  induction l with
  | nil => rfl
  | cons a as ih =>
    simp [List.filter_append, ih]
    omega

/-- C2 (counterexample): the document `"# A\nx"` under path `d.md` has
one section, yet the synthesizer's relationship batch has zero rows
typed `contains` — the two document–section rows are typed `category`. -/
theorem fileRelationships_contains_ce :
    (extractSections "# A\nx").length = 1 ∧
    (fileRelationships "d.md" "# A\nx").filter
      (fun r => r.relationship_type == "contains") = [] ∧
    fileRelationships "d.md" "# A\nx" =
      [RelRow.mk "d.md" "d.md#a" "category",
       RelRow.mk "d.md#a" "d.md" "category"] := by decide

/-- C2 (amended): for every indexed document and every section extracted
from it, the relationship synthesizer creates exactly two relationship
rows — one directed document→section and one reciprocal
section→document — but both are typed `category`, not `contains`; no
relationship row typed `contains` is persisted at all (the `contains`
typing exists only on the links synthesized by the graph export). -/
theorem fileRelationships_category_rows (path content : String) :
    (fileRelationships path content).filter
      (fun r => r.relationship_type == "contains") = [] ∧
    ((fileRelationships path content).filter
      (fun r => r.relationship_type == "category")).length =
      2 * (extractSections content).length ∧
    ∀ s ∈ extractSections content,
      RelRow.mk path (sectionIdOf path s.title) "category" ∈
        fileRelationships path content ∧
      RelRow.mk (sectionIdOf path s.title) path "category" ∈
        fileRelationships path content := by
  refine ⟨?_, ?_, ?_⟩
  · unfold fileRelationships
    rw [List.filter_append, linkRows_filter_ne path _ _ (by decide),
      catRows_filter_contains, List.nil_append]
  · unfold fileRelationships
    rw [List.filter_append, linkRows_filter_ne path _ _ (by decide),
      List.nil_append, catRows_filter_category]
  · intro s hs
    constructor
    · unfold fileRelationships
      apply List.mem_append_right
      exact List.mem_flatMap.mpr ⟨s, hs, by simp⟩
    · unfold fileRelationships
      apply List.mem_append_right
      exact List.mem_flatMap.mpr ⟨s, hs, by simp⟩

/-- C2 (witness): the amended theorem at the document `"# A\nx"` under
path `d.md` and its single section `A`. -/
theorem fileRelationships_category_rows_witness :
    RelRow.mk "d.md" "d.md#a" "category" ∈ fileRelationships "d.md" "# A\nx" ∧
    RelRow.mk "d.md#a" "d.md" "category" ∈ fileRelationships "d.md" "# A\nx" := by
  have h := (fileRelationships_category_rows "d.md" "# A\nx").2.2
    (MdSection.mk "A" "x" 1 none "A") (by decide)
  have e : sectionIdOf "d.md" (MdSection.mk "A" "x" 1 none "A").title = "d.md#a" := by
    decide
  rw [e] at h
  exact h

/-! ### Properties of the transactional write phases -/

/-- C3 (counterexample): the claim fails twice on concrete runs.  With
previously committed index `[5]` and a write failure inside the first
batch, the resulting index is empty, not the previous `[5]` — the run
cleared the old rows outside any transaction before writing.  With a
failure inside the second (category-edge) batch, the first batch stays
committed and the run reports success instead of propagating a hard
error. -/
theorem buildRun_atomic_ce :
    (0 < ([0] : List ℕ).length ∧
      buildRun [5] [0] [1] (some 0) none = ([], false)) ∧
    (0 < ([1] : List ℕ).length ∧
      buildRun [5] [0] [1] none (some 0) = ([0], true)) := by decide

/-- C3 (amended): a rebuild first discards the previously committed
index outside any transaction; the document/section/relationship/
keyword writes then form one atomic batch — a mid-batch failure rolls
that batch back, leaving the (now empty) index, and propagates as a
hard error — after which the category-edge writes form a second atomic
batch whose mid-batch failure rolls back only the category edges,
leaves the first batch committed, and is swallowed, the run still
reporting success. -/
theorem buildRun_atomic {α : Type} (db batch1 batch2 : List α)
    (k : ℕ) (fail2 : Option ℕ) :
    (k < batch1.length →
      buildRun db batch1 batch2 (some k) fail2 = ([], false)) ∧
    (k < batch2.length →
      buildRun db batch1 batch2 none (some k) = (batch1, true)) ∧
    buildRun db batch1 batch2 none none = (batch1 ++ batch2, true) := by
  refine ⟨?_, ?_, ?_⟩
  · intro hk
    simp [buildRun, runBatch, hk]
  · intro hk
    simp [buildRun, runBatch, if_pos hk]
  · simp [buildRun, runBatch]

/-- C3 (witness): the amended theorem at concrete batches. -/
theorem buildRun_atomic_witness :
    (buildRun [5] [7, 8] [9] (some 1) none = ([], false)) ∧
    (buildRun [5] [7, 8] [9] none (some 0) = ([7, 8], true)) ∧
    buildRun [5] [7, 8] [9] none none = ([7, 8, 9], true) := by
  have h := buildRun_atomic [5] [7, 8] [9] 1 none
  refine ⟨h.1 (by decide), ?_, h.2.2⟩
  have h0 := buildRun_atomic [5] [7, 8] [9] 0 none
  exact h0.2.1 (by decide)

/-! ### Properties of the category index -/

theorem pair_count_identity (n : ℕ) : 2 * n + n * (n - 1) = (n + 1) * n := by
  cases n with
  | zero => rfl
  | succ m =>
    simp [Nat.succ_sub_one]
    ring

theorem flatMapPair_length (d : String) (l : List String) :
    (l.flatMap (fun e =>
      [RelRow.mk d e "category", RelRow.mk e d "category"])).length =
      2 * l.length := by
  induction l with
  | nil => rfl
  | cons a as ih =>
    simp only [List.flatMap_cons, List.length_append, List.length_cons] at ih ⊢
    simp at ih ⊢
    omega

theorem pairEdges_length (l : List String) :
    (pairEdges l).length = l.length * (l.length - 1) := by
  induction l with
  | nil => rfl
  | cons d rest ih =>
    simp only [pairEdges, List.length_append, flatMapPair_length, ih,
      List.length_cons, Nat.succ_sub_one]
    exact pair_count_identity rest.length

theorem pairEdges_mem (l : List String) :
    ∀ e ∈ pairEdges l, e.source_id ∈ l ∧ e.target_id ∈ l ∧
      e.relationship_type = "category" := by
  induction l with
  | nil => intro e he; cases he
  | cons d rest ih =>
    intro e he
    rcases List.mem_append.mp he with hflat | hrec
    · obtain ⟨x, hx, hex⟩ := List.mem_flatMap.mp hflat
      rcases List.mem_cons.mp hex with rfl | h2
      · exact ⟨by simp, by simp [hx], rfl⟩
      · rcases List.mem_cons.mp h2 with rfl | h3
        · exact ⟨by simp [hx], by simp, rfl⟩
        · cases h3
    · obtain ⟨h1, h2, h3⟩ := ih e hrec
      exact ⟨List.mem_cons_of_mem _ h1, List.mem_cons_of_mem _ h2, h3⟩

theorem docSectionEdges_mem (doc : String) (secs : List String) :
    ∀ e ∈ docSectionEdges doc secs,
      e.relationship_type = "category" ∧
      ((e.source_id = doc ∧ e.target_id ∈ secs ∧
          ¬ List.isPrefixOf (doc ++ "#").data e.target_id.data) ∨
       (e.target_id = doc ∧ e.source_id ∈ secs ∧
          ¬ List.isPrefixOf (doc ++ "#").data e.source_id.data)) := by
  intro e he
  unfold docSectionEdges at he
  obtain ⟨x, hx, hex⟩ := List.mem_flatMap.mp he
  have hxf : x ∈ secs.filter (fun s => !(List.isPrefixOf doc.data s.data)) :=
    List.mem_of_mem_take hx
  obtain ⟨hxs, hxp⟩ := List.mem_filter.mp hxf
  have hnp : ¬ List.isPrefixOf (doc ++ "#").data x.data := by
    intro hcontra
    rw [List.isPrefixOf_iff_prefix] at hcontra
    have hdp : doc.data <+: (doc ++ "#").data := by
      rw [String.data_append]
      exact List.prefix_append _ _
    have : doc.data <+: x.data := hdp.trans hcontra
    rw [← List.isPrefixOf_iff_prefix] at this
    simp [this] at hxp
  rcases List.mem_cons.mp hex with rfl | h2
  · exact ⟨rfl, Or.inl ⟨rfl, hxs, hnp⟩⟩
  · rcases List.mem_cons.mp h2 with rfl | h3
    · exact ⟨rfl, Or.inr ⟨rfl, hxs, hnp⟩⟩
    · cases h3

theorem docSectionEdges_length (doc : String) (secs : List String) :
    (docSectionEdges doc secs).length ≤ 10 := by
  unfold docSectionEdges
  rw [List.length_flatMap]
  have hlen : ((secs.filter (fun s => !(List.isPrefixOf doc.data s.data))).take 5).length ≤ 5 :=
    le_trans (List.length_take_le _ _) (le_refl 5)
  calc ((((secs.filter (fun s => !(List.isPrefixOf doc.data s.data))).take 5).map
        (fun s => [RelRow.mk doc s "category", RelRow.mk s doc "category"].length)).sum)
      ≤ (((secs.filter (fun s => !(List.isPrefixOf doc.data s.data))).take 5).map
        (fun _ => 2)).sum := by
        apply List.sum_le_sum
        intro i _
        simp
    _ ≤ 10 := by
        rw [List.map_const', List.sum_replicate, smul_eq_mul]
        omega

/-- C6: within one category group, the document–document `category`
edges connect only the first ten documents of the group — exactly
n·(n−1) directed edges for the n ≤ 10 capped documents, hence at most
90, independent of the group size — and each capped document is
additionally connected bidirectionally to at most five same-category
sections, none of which belongs to the document itself. -/
theorem categoryGroupEdges_cap (docs secs : List String) :
    ((pairEdges (docs.take 10)).length =
        (docs.take 10).length * ((docs.take 10).length - 1) ∧
      (pairEdges (docs.take 10)).length ≤ 90) ∧
    (∀ e ∈ pairEdges (docs.take 10),
      e.source_id ∈ docs.take 10 ∧ e.target_id ∈ docs.take 10 ∧
        e.relationship_type = "category") ∧
    (∀ d ∈ docs.take 10,
      (docSectionEdges d secs).length ≤ 10 ∧
      ∀ e ∈ docSectionEdges d secs,
        e.relationship_type = "category" ∧
        ((e.source_id = d ∧ e.target_id ∈ secs ∧
            ¬ List.isPrefixOf (d ++ "#").data e.target_id.data) ∨
         (e.target_id = d ∧ e.source_id ∈ secs ∧
            ¬ List.isPrefixOf (d ++ "#").data e.source_id.data))) ∧
    categoryGroupEdges docs secs =
      pairEdges (docs.take 10) ++
        (docs.take 10).flatMap (fun d => docSectionEdges d secs) := by
  refine ⟨⟨pairEdges_length _, ?_⟩, pairEdges_mem _, ?_, rfl⟩
  · rw [pairEdges_length]
    have h10 : (docs.take 10).length ≤ 10 := List.length_take_le 10 docs
    calc (docs.take 10).length * ((docs.take 10).length - 1)
        ≤ 10 * 9 := Nat.mul_le_mul h10 (by omega)
      _ = 90 := rfl
  · intro d _
    exact ⟨docSectionEdges_length d secs, docSectionEdges_mem d secs⟩

/-- C6 (witness): the theorem applied to a two-document group with one
foreign and one own section. -/
theorem categoryGroupEdges_cap_witness :
    (pairEdges (["a.md", "b.md"].take 10)).length ≤ 90 ∧
    (docSectionEdges "a.md" ["a.md#s", "c.md#t"]).length ≤ 10 := by
  have h := categoryGroupEdges_cap ["a.md", "b.md"] ["a.md#s", "c.md#t"]
  exact ⟨h.1.2, (h.2.2.1 "a.md" (by decide)).1⟩

/-! ### Properties of the graph export -/

/-- C7: the persisted sections of `"# A\nx\n## B\ny"` include one whose
parent reference is the title `A`, yet the exported graph contains no
`parent-child` link at all: the export looks the parent reference up
among node ids (document paths and section ids such as `d.md#a`), and a
stored parent reference is a bare section title, which is not a node
id. -/
theorem export_parent_child_missing :
    (∃ s ∈ docSectionRows "d.md" "# A\nx\n## B\ny", s.parent_id = some "A") ∧
    ((extractGraphData [DocRow.mk "d.md"]
        (docSectionRows "d.md" "# A\nx\n## B\ny")
        (fileRelationships "d.md" "# A\nx\n## B\ny")).2.filter
      (fun l => l.type == "parent-child")) = [] := by decide

/-- C8 (counterexample): re-indexing the single document `"# A\nx"`
persists one document, one section and two relationship rows; the
export then yields two nodes but three links — the synthesized
`contains` link is computed at export time, so the edge count does not
equal the number of relationship rows inserted. -/
theorem export_counts_ce :
    (extractGraphData [DocRow.mk "d.md"] (docSectionRows "d.md" "# A\nx")
        (fileRelationships "d.md" "# A\nx")).1.length = 2 ∧
    (extractGraphData [DocRow.mk "d.md"] (docSectionRows "d.md" "# A\nx")
        (fileRelationships "d.md" "# A\nx")).2.length = 3 ∧
    (fileRelationships "d.md" "# A\nx").length = 2 := by decide

theorem sectionLinksAux_mem (sections : List SectionRow) :
    ∀ seen : List String, ∀ l ∈ sectionLinksAux seen sections,
      (∃ s ∈ sections, l = GLink.mk s.doc_path s.section_id "contains") ∨
      (∃ s ∈ sections, ∃ p, s.parent_id = some p ∧
        l = GLink.mk p s.section_id "parent-child") := by
  induction sections with
  | nil => intro seen l hl; cases hl
  | cons s rest ih =>
    intro seen l hl
    unfold sectionLinksAux at hl
    rcases List.mem_append.mp hl with hfirst | hrec
    · rcases List.mem_append.mp hfirst with hcont | hpar
      · left
        refine ⟨s, List.mem_cons_self _ _, ?_⟩
        revert hcont
        split
        · intro hcont
          exact List.mem_singleton.mp hcont
        · intro hcont; cases hcont
      · right
        split at hpar
        · rename_i p hsp
          split at hpar
          · exact ⟨s, List.mem_cons_self _ _, p, hsp, by simpa using hpar⟩
          · cases hpar
        · cases hpar
    · rcases ih _ l hrec with ⟨s', hs', heq⟩ | ⟨s', hs', p, hp, heq⟩
      · exact Or.inl ⟨s', List.mem_cons_of_mem _ hs', heq⟩
      · exact Or.inr ⟨s', List.mem_cons_of_mem _ hs', p, hp, heq⟩

/-- C8 (amended): the export yields exactly one node per document plus
one per section, but its edge list is not a pure copy of the persisted
relationship rows: every link is either a `contains` link synthesized
from a section, a `parent-child` link synthesized from a section whose
parent reference is a node id, or a copy of a relationship row both of
whose endpoints are node ids — and every such row is exported. -/
theorem extractGraphData_shape (docs : List DocRow) (sections : List SectionRow)
    (rels : List RelRow) :
    (extractGraphData docs sections rels).1.length =
      docs.length + sections.length ∧
    (∀ l ∈ (extractGraphData docs sections rels).2,
      (∃ s ∈ sections, l = GLink.mk s.doc_path s.section_id "contains") ∨
      (∃ s ∈ sections, ∃ p, s.parent_id = some p ∧
        l = GLink.mk p s.section_id "parent-child") ∨
      (∃ r ∈ rels, l = GLink.mk r.source_id r.target_id r.relationship_type)) ∧
    (∀ r ∈ rels,
      (nodeIdsOf docs sections).contains r.source_id →
      (nodeIdsOf docs sections).contains r.target_id →
      GLink.mk r.source_id r.target_id r.relationship_type ∈
        (extractGraphData docs sections rels).2) := by
  refine ⟨by simp [extractGraphData], ?_, ?_⟩
  · intro l hl
    rcases List.mem_append.mp hl with hsec | hrel
    · rcases sectionLinksAux_mem sections _ l hsec with h | h
      · exact Or.inl h
      · exact Or.inr (Or.inl h)
    · obtain ⟨r, hr, hlr⟩ := List.mem_map.mp hrel
      exact Or.inr (Or.inr ⟨r, (List.mem_filter.mp hr).1, hlr.symm⟩)
  · intro r hr hs ht
    apply List.mem_append_right
    exact List.mem_map.mpr ⟨r, List.mem_filter.mpr
      ⟨hr, by rw [Bool.and_eq_true]; exact ⟨hs, ht⟩⟩, rfl⟩

/-- C8 (witness): the amended theorem at the single document `"# A\nx"`:
two nodes, and the persisted document→section `category` row is
exported. -/
theorem extractGraphData_shape_witness :
    (extractGraphData [DocRow.mk "d.md"] (docSectionRows "d.md" "# A\nx")
        (fileRelationships "d.md" "# A\nx")).1.length = 2 ∧
    GLink.mk "d.md" "d.md#a" "category" ∈
      (extractGraphData [DocRow.mk "d.md"] (docSectionRows "d.md" "# A\nx")
        (fileRelationships "d.md" "# A\nx")).2 := by
  have h := extractGraphData_shape [DocRow.mk "d.md"]
    (docSectionRows "d.md" "# A\nx") (fileRelationships "d.md" "# A\nx")
  constructor
  · rw [h.1]
    decide
  · exact h.2.2 (RelRow.mk "d.md" "d.md#a" "category")
      (by decide) (by decide) (by decide)

theorem contains_mem {α} [BEq α] [LawfulBEq α] {l : List α} {a : α} :
    l.contains a = true ↔ a ∈ l := by
  simp [List.contains]

theorem sectionLinksAux_closed (N : List String) (sections : List SectionRow) :
    ∀ seen : List String, (∀ x ∈ seen, x ∈ N) →
    (∀ s ∈ sections, s.section_id ∈ N) →
    ∀ l ∈ sectionLinksAux seen sections, l.source ∈ N ∧ l.target ∈ N := by
  induction sections with
  | nil => intro seen _ _ l hl; cases hl
  | cons s rest ih =>
    intro seen hseen hsecs l hl
    have hsid : s.section_id ∈ N := hsecs s (List.mem_cons_self _ _)
    have hseen' : ∀ x ∈ seen ++ [s.section_id], x ∈ N := by
      intro x hx
      rcases List.mem_append.mp hx with hx' | hx'
      · exact hseen x hx'
      · simp at hx'
        exact hx' ▸ hsid
    unfold sectionLinksAux at hl
    rcases List.mem_append.mp hl with hfirst | hrec
    · rcases List.mem_append.mp hfirst with hcont | hpar
      · revert hcont
        split
        · rename_i hc
          intro hcont
          simp only [List.mem_singleton] at hcont
          subst hcont
          refine ⟨hseen' _ ?_, hsid⟩
          simpa [contains_mem] using hc
        · intro hcont; cases hcont
      · split at hpar
        · rename_i p hsp
          split at hpar
          · rename_i hg
            simp only [List.mem_singleton] at hpar
            subst hpar
            refine ⟨hseen' _ ?_, hsid⟩
            have := hg.2
            simpa [contains_mem] using this
          · cases hpar
        · cases hpar
    · exact ih _ hseen' (fun x hx => hsecs x (List.mem_cons_of_mem _ hx)) l hrec

/-- C10: every link of the exported graph payload has both endpoints
among the payload's node ids — a stored relationship row with an
unknown endpoint (for example a hyperlink to a never-indexed target) is
silently omitted rather than exported as a dangling edge. -/
theorem extractGraphData_no_dangling (docs : List DocRow)
    (sections : List SectionRow) (rels : List RelRow) :
    ∀ l ∈ (extractGraphData docs sections rels).2,
      l.source ∈ nodeIdsOf docs sections ∧
      l.target ∈ nodeIdsOf docs sections := by
  intro l hl
  rcases List.mem_append.mp hl with hsec | hrel
  · apply sectionLinksAux_closed (nodeIdsOf docs sections) sections
      (docs.map (·.path)) _ _ l hsec
    · intro x hx
      exact List.mem_append_left _ hx
    · intro s hs
      exact List.mem_append_right _ (List.mem_map_of_mem _ hs)
  · obtain ⟨r, hr, hlr⟩ := List.mem_map.mp hrel
    have hcond := (List.mem_filter.mp hr).2
    simp only [Bool.and_eq_true, contains_mem] at hcond
    subst hlr
    exact ⟨hcond.1, hcond.2⟩

/-- C10 (witness): the theorem at a store holding one `link` row whose
target `ghost.md` was never indexed: the exported `contains` link is
closed over the node ids, and the dangling row is not exported. -/
theorem extractGraphData_no_dangling_witness :
    "d.md" ∈ nodeIdsOf [DocRow.mk "d.md"] (docSectionRows "d.md" "# A\nx") ∧
    "d.md#a" ∈ nodeIdsOf [DocRow.mk "d.md"] (docSectionRows "d.md" "# A\nx") :=
  extractGraphData_no_dangling [DocRow.mk "d.md"]
    (docSectionRows "d.md" "# A\nx")
    [RelRow.mk "d.md" "ghost.md" "link"]
    (GLink.mk "d.md" "d.md#a" "contains") (by decide)
